import Mathlib

/-!
Verification of the pi-interface remote file manager frontend against its
specification.  The definitions below are a shallow embedding of the
TypeScript source: pure decision logic of the page handlers in
`src/pages/FileExplorer.tsx`, the login component, the progress consumer in
`src/components/DownloadProgress.tsx`, and the utility module.  The Tauri
backend commands (path sandbox, batch delete) are not part of the
repository sources available here; where a claim depends on them they are
modelled from the specification and marked as such.
-/

namespace PiInterface

/-- A user account, from the `User` interface of the sources: a name,
an opaque password, and a storage limit in gigabytes. -/
structure User where
  name : String
  password : String
  storage_limit : Nat
deriving DecidableEq

/-- A whitespace character for the JavaScript trim operation (the
characters relevant to folder names in this interface). -/
def isJsSpace (c : Char) : Bool :=
  c = ' ' ∨ c = '\t' ∨ c = '\n' ∨ c = '\r'

/-- The JavaScript string trim used by the source: drops whitespace from
both ends of the string. -/
def jsTrim (s : String) : String :=
  String.mk (((s.data.dropWhile isJsSpace).reverse.dropWhile isJsSpace).reverse)

/-- The JavaScript lower-casing of one character in the ASCII range used
by the user names of this interface. -/
def jsCharToLower (c : Char) : Char :=
  if 65 ≤ c.toNat ∧ c.toNat ≤ 90 then Char.ofNat (c.toNat + 32) else c

/-- The JavaScript toLowerCase used by every invoke site for the
`userName` argument. -/
def jsToLowerCase (s : String) : String :=
  String.mk (s.data.map jsCharToLower)

/-! ## Upload quota gate (`handleUpload` in FileExplorer.tsx) -/

/-- Outcome of the `handleUpload` handler, as visible at the backend
boundary.  `quotaReject` is the early return of the quota check: the source
only writes a console log there and shows no notification and no error
value to the user; `invokeUpload` is the call of the `upload_files`
backend command with the selected sources. -/
inductive UploadAction where
  | noSelection
  | quotaReject
  | invokeUpload (fileSizes : List Nat)
deriving DecidableEq

/-- The decision logic of `handleUpload`: given the cached `storageUsed`
state (null when the storage query has not delivered a value), the user,
and the byte sizes of the selected local files, decide whether the
`upload_files` command is invoked.  The guard in the source is
`storageUsed !== null && storageLimitInBytes && (storageUsed + totalFileSize > storageLimitInBytes)`;
the truthiness test on `storageLimitInBytes` makes the gate inoperative
when the limit is zero. -/
def handleUpload (user : User) (storageUsed : Option Nat) (fileSizes : List Nat) :
    UploadAction :=
  if fileSizes = [] then .noSelection
  else
    let totalFileSize := fileSizes.foldl (fun acc size => acc + size) 0
    let storageLimitInBytes := user.storage_limit * 1000 * 1000 * 1000
    match storageUsed with
    | some used =>
        if storageLimitInBytes ≠ 0 ∧ used + totalFileSize > storageLimitInBytes then
          .quotaReject
        else
          .invokeUpload fileSizes
    | none => .invokeUpload fileSizes

/-! ## Folder creation (`handleCreateFolder` in FileExplorer.tsx) -/

/-- Outcome of the `handleCreateFolder` handler.  `rejectEmptyName` is the
early return showing the notification that the folder name cannot be
empty; `invokeCreateFolder` is the call of the `create_folder` backend
command with the entered name passed through unchanged. -/
inductive CreateFolderAction where
  | rejectEmptyName
  | invokeCreateFolder (folderName : String)
deriving DecidableEq

/-- The decision logic of `handleCreateFolder`: the source rejects exactly
when `newFolderName.trim() === ''` and otherwise invokes the backend with
the untrimmed name. -/
def handleCreateFolder (newFolderName : String) : CreateFolderAction :=
  if jsTrim newFolderName = "" then .rejectEmptyName
  else .invokeCreateFolder newFolderName

/-! ## Login (`handleLogin` in the Login component) -/

/-- Outcome of the login attempt: either the `onLogin` callback is invoked
with the matching account, or the alert with invalid credentials is shown
and `onLogin` is not invoked. -/
inductive LoginOutcome where
  | loggedIn (user : User)
  | invalidCredentials
deriving DecidableEq

/-- The decision logic of `handleLogin` in the Login component: the source
runs `users.find(user => user.name === selectedUser)` and then compares the
password of the found account with the entered one. -/
def handleLogin (users : List User) (selectedUser : Option String) (password : String) :
    LoginOutcome :=
  match users.find? (fun u => selectedUser = some u.name) with
  | some u => if u.password = password then .loggedIn u else .invalidCredentials
  | none => .invalidCredentials

/-! ## Row selection toggle (`handleRowClick` in FileExplorer.tsx) -/

/-- The selection update of `handleRowClick`: the source copies the set of
selected names, deletes the clicked name when present and adds it when
absent. -/
def handleRowClick (fileName : String) (selected : Finset String) : Finset String :=
  if fileName ∈ selected then selected.erase fileName
  else insert fileName selected

/-! ## Backend call arguments (all invoke sites of the sources) -/

/-- A backend command invocation as visible at the Tauri boundary,
restricted to the fields the user naming convention concerns: the command
name and the `userName` argument.  The remaining arguments of each call do
not mention the user name. -/
structure BackendCall where
  command : String
  userName : String
deriving DecidableEq

/-- The `connect_to_pi` call of `fetchFiles` in the utility module; the
source passes the lower-cased user name as the `userName` argument. -/
def fetchFilesCall (user : User) : BackendCall :=
  ⟨"connect_to_pi", jsToLowerCase user.name⟩

/-- The `get_storage_used` call of `updateStorageUsed`. -/
def storageUsedCall (user : User) : BackendCall :=
  ⟨"get_storage_used", jsToLowerCase user.name⟩

/-- The `download_files` call of `handleDownload`. -/
def downloadFilesCall (user : User) : BackendCall :=
  ⟨"download_files", jsToLowerCase user.name⟩

/-- The `upload_files` call of `handleUpload`. -/
def uploadFilesCall (user : User) : BackendCall :=
  ⟨"upload_files", jsToLowerCase user.name⟩

/-- The `create_folder` call of `handleCreateFolder`. -/
def createFolderCall (user : User) : BackendCall :=
  ⟨"create_folder", jsToLowerCase user.name⟩

/-- The `rename_file` call of `handleRenameFile`. -/
def renameFileCall (user : User) : BackendCall :=
  ⟨"rename_file", jsToLowerCase user.name⟩

/-- The `delete_files` call of `handleConfirmDelete`. -/
def deleteFilesCall (user : User) : BackendCall :=
  ⟨"delete_files", jsToLowerCase user.name⟩

/-- The `read_file` call of `handleOpen`. -/
def readFileCall (user : User) : BackendCall :=
  ⟨"read_file", jsToLowerCase user.name⟩

/-- The `save_file` call of `handleSaveFile`. -/
def saveFileCall (user : User) : BackendCall :=
  ⟨"save_file", jsToLowerCase user.name⟩

/-- Every backend command invocation issued by the interface pages for a
given user, one entry per invoke site of the sources. -/
def explorerBackendCalls (user : User) : List BackendCall :=
  [fetchFilesCall user, storageUsedCall user, downloadFilesCall user,
   uploadFilesCall user, createFolderCall user, renameFileCall user,
   deleteFilesCall user, readFileCall user, saveFileCall user]

/-! ## Download progress consumer (DownloadProgress.tsx) -/

/-- What the progress bar can render: either an indeterminate state (no
stable percentage) or a determinate percent value. -/
inductive ProgressDisplay where
  | indeterminate
  | percent (value : ℚ)
deriving DecidableEq

/-- The percentage computation of the component:
`totalSize > 0 ? (progress / totalSize) * 100 : 0`. -/
def downloadProgressValue (progress totalSize : ℚ) : ℚ :=
  if 0 < totalSize then progress / totalSize * 100 else 0

/-- The rendered output of the component: the source always passes a
determinate numeric value prop to the progress bar, never an indeterminate
state. -/
def downloadProgressDisplay (progress totalSize : ℚ) : ProgressDisplay :=
  .percent (downloadProgressValue progress totalSize)

/-- The events the progress consumer listens to: byte counts on the
download-progress and zip-progress channels and the total size
announcement. -/
inductive PiEvent where
  | downloadProgress (payload : Nat)
  | zipProgress (payload : Nat)
  | totalSize (payload : Nat)
deriving DecidableEq

/-- The mutable refs of the consumer that the listeners write and the
sampling interval reads. -/
structure ProgressState where
  progress : Nat
  totalSize : Nat
deriving DecidableEq

/-- One listener firing: both progress channels overwrite the progress ref
with the payload verbatim; the total size channel overwrites the total
size ref. -/
def step (s : ProgressState) : PiEvent → ProgressState
  | .downloadProgress v => { s with progress := v }
  | .zipProgress v => { s with progress := v }
  | .totalSize v => { s with totalSize := v }

/-- The consumer state after a sequence of events. -/
def runEvents (s : ProgressState) (events : List PiEvent) : ProgressState :=
  events.foldl step s

/-- The byte payload of an event on either progress channel. -/
def progressPayload : PiEvent → Option Nat
  | .downloadProgress v => some v
  | .zipProgress v => some v
  | .totalSize _ => none

/-- The progress payloads of an event sequence, in order. -/
def progressPayloads (events : List PiEvent) : List Nat :=
  events.filterMap progressPayload

/-! ## Path sandbox (backend, modelled from the spec) -/

/-- Modelled from the spec: the error of the Path Sandbox, raised when
normalization would leave the user root.  The backend implementing the
sandbox is not among the sources here. -/
inductive PathError where
  | pathEscape
deriving DecidableEq

/-- Modelled from the spec: normalization of relative segments over an
explicit stack of directory names (most recent first).  A dot segment and
an empty segment are skipped, a dot-dot segment pops the stack and fails
when the stack is empty, since popping there would leave the user root,
and any other segment is pushed. -/
def normalize (stack : List String) : List String → Option (List String)
  | [] => some stack
  | seg :: rest =>
      if seg = "." ∨ seg = "" then normalize stack rest
      else if seg = ".." then
        match stack with
        | [] => none
        | _ :: stack2 => normalize stack2 rest
      else normalize (seg :: stack) rest

/-- Modelled from the spec: the per-user root, a fixed base directory
joined with the user name in canonical lower-case form. -/
def rootPath (base : List String) (user : User) : List String :=
  base ++ [jsToLowerCase user.name]

/-- Modelled from the spec: `resolve` of the Path Sandbox joins relative
segments onto the user root, normalizes dot and dot-dot components, and
fails with a path escape error when normalization would leave the root. -/
def resolve (base : List String) (user : User) (segs : List String) :
    Except PathError (List String) :=
  match normalize [] segs with
  | some stack => .ok (rootPath base user ++ stack.reverse)
  | none => .error .pathEscape

/-- The depth contribution of one segment: dot and empty segments do not
move, a dot-dot segment goes up one level, any other segment goes down one
level. -/
def segDepth (seg : String) : Int :=
  if seg = "." ∨ seg = "" then 0 else if seg = ".." then -1 else 1

/-- The net depth of a segment sequence relative to its starting
directory. -/
def netDepth : List String → Int
  | [] => 0
  | seg :: rest => segDepth seg + netDepth rest

/-! ## Batch delete (backend, modelled from the spec) -/

/-- Modelled from the spec: deleting one named entry from a directory,
returning the directory afterwards and the name again when it failed
because no such entry exists. -/
def deleteOne (dir : List String) (name : String) : List String × Option String :=
  if name ∈ dir then (dir.filter (fun e => e ≠ name), none)
  else (dir, some name)

/-- Modelled from the spec: the backend batch delete attempts each name
independently, a failure on one name does not prevent attempting the
rest, and the aggregate result collects the names that failed. -/
def deleteEntries (dir : List String) (names : List String) :
    List String × List String :=
  match names with
  | [] => (dir, [])
  | n :: rest =>
      let first := deleteOne dir n
      let remaining := deleteEntries first.1 rest
      (remaining.1, first.2.toList ++ remaining.2)

/-! ## Theorems -/

/-- Helper: with a known storage value and a nonempty selection, the
upload handler reduces to the quota comparison of the source. -/
theorem handleUpload_some_eq (user : User) (used : Nat) (fileSizes : List Nat)
    (hne : fileSizes ≠ []) :
    handleUpload user (some used) fileSizes =
      if user.storage_limit * 1000 * 1000 * 1000 ≠ 0 ∧
          used + fileSizes.foldl (fun acc size => acc + size) 0 >
            user.storage_limit * 1000 * 1000 * 1000 then
        .quotaReject
      else .invokeUpload fileSizes := by
  unfold handleUpload
  rw [if_neg hne]

/-- C1 counterexample: a logged-in user with `storage_limit = 0` and a
known used value of 5 bytes selects a 3 byte file; the known used bytes
plus the batch size exceed `storage_limit * 10^9 = 0`, yet the
`upload_files` command is invoked, because the truthiness guard on
`storageLimitInBytes` disables the quota gate. -/
theorem handleUpload_quota_claim_false :
    (5 : Nat) + ([3] : List Nat).foldl (fun acc size => acc + size) 0 >
      (⟨"alice", "pw", 0⟩ : User).storage_limit * 1000 * 1000 * 1000 ∧
    handleUpload ⟨"alice", "pw", 0⟩ (some 5) [3] = .invokeUpload [3] := by
  decide

/-- C1 (amended): with a known used value and a nonempty selection, the
upload is rejected in full (the `upload_files` command is never invoked,
with only a console log and no QuotaExceededError surfaced) exactly when
the storage limit in bytes is nonzero and the known used bytes plus the
batch total exceed it; in every other case the upload command is
invoked. -/
theorem handleUpload_quota_gate (user : User) (used : Nat) (fileSizes : List Nat)
    (hne : fileSizes ≠ []) :
    (handleUpload user (some used) fileSizes = .quotaReject ↔
      (user.storage_limit * 1000 * 1000 * 1000 ≠ 0 ∧
        used + fileSizes.foldl (fun acc size => acc + size) 0 >
          user.storage_limit * 1000 * 1000 * 1000)) ∧
    (handleUpload user (some used) fileSizes = .quotaReject ∨
      handleUpload user (some used) fileSizes = .invokeUpload fileSizes) := by
  rw [handleUpload_some_eq user used fileSizes hne]
  by_cases h : user.storage_limit * 1000 * 1000 * 1000 ≠ 0 ∧
      used + fileSizes.foldl (fun acc size => acc + size) 0 >
        user.storage_limit * 1000 * 1000 * 1000
  · rw [if_pos h]
    exact ⟨⟨fun _ => h, fun _ => rfl⟩, Or.inl rfl⟩
  · rw [if_neg h]
    refine ⟨⟨fun hcontra => ?_, fun hcond => absurd hcond h⟩, Or.inr rfl⟩
    cases hcontra

/-- C1 witness: the spec scenario of a user with a 1 GB limit,
900000000 bytes used and a 200000000 byte upload is rejected. -/
theorem handleUpload_quota_gate_witness :
    handleUpload ⟨"alice", "pw", 1⟩ (some 900000000) [200000000] = .quotaReject :=
  (handleUpload_quota_gate ⟨"alice", "pw", 1⟩ 900000000 [200000000]
    (by decide)).1.mpr (by decide)

/-- C9: when the used-storage value is unknown (the storage query failed
or has not completed) or the storage limit is zero, the quota gate is
skipped and the upload command is invoked for every nonempty batch,
regardless of its total size. -/
theorem handleUpload_gate_skipped (user : User) (storageUsed : Option Nat)
    (fileSizes : List Nat) (hne : fileSizes ≠ [])
    (h : storageUsed = none ∨ user.storage_limit = 0) :
    handleUpload user storageUsed fileSizes = .invokeUpload fileSizes := by
  rcases h with h | h
  · subst h
    unfold handleUpload
    rw [if_neg hne]
  · cases storageUsed with
    | none =>
        unfold handleUpload
        rw [if_neg hne]
    | some used =>
        rw [handleUpload_some_eq user used fileSizes hne]
        rw [if_neg (by simp [h])]

/-- C9 witness: a user with limit zero and a known used value of 7 bytes
still gets the upload command invoked for a 5 byte file. -/
theorem handleUpload_gate_skipped_witness :
    handleUpload ⟨"bob", "pw", 0⟩ (some 7) [5] = .invokeUpload [5] :=
  handleUpload_gate_skipped ⟨"bob", "pw", 0⟩ (some 7) [5] (by decide) (Or.inr rfl)

/-- C6 counterexample: the folder name a/b contains a path separator, yet
the handler passes it through to the `create_folder` backend command
instead of rejecting it, since the source only checks for a
whitespace-trimmed empty name. -/
theorem handleCreateFolder_separator_claim_false :
    '/' ∈ "a/b".data ∧
    handleCreateFolder "a/b" = .invokeCreateFolder "a/b" := by
  decide

/-- C6 (amended): folder creation is rejected in the frontend (with an
empty-name notification, the backend never invoked) exactly when the
entered name trims to the empty string; every other name, including names
containing path separators, is passed unchanged to the backend create
command. -/
theorem handleCreateFolder_empty_check (name : String) :
    (handleCreateFolder name = .rejectEmptyName ↔ jsTrim name = "") ∧
    (jsTrim name ≠ "" → handleCreateFolder name = .invokeCreateFolder name) := by
  unfold handleCreateFolder
  by_cases h : jsTrim name = ""
  · simp [h]
  · simp [h]

/-- C6 witness: the name docs is passed through to the backend. -/
theorem handleCreateFolder_empty_check_witness :
    handleCreateFolder "docs" = .invokeCreateFolder "docs" :=
  (handleCreateFolder_empty_check "docs").2 (by decide)

/-- C10: the row-click toggle is an involution on the set of selected
names: applying it twice returns the original selection, and one
application adds the name exactly when it was absent and removes it
exactly when it was present. -/
theorem handleRowClick_toggle (fileName : String) (selected : Finset String) :
    handleRowClick fileName (handleRowClick fileName selected) = selected ∧
    (fileName ∈ handleRowClick fileName selected ↔ fileName ∉ selected) := by
  simp only [handleRowClick]
  by_cases h : fileName ∈ selected
  · rw [if_pos h, if_neg (Finset.not_mem_erase _ _), Finset.insert_erase h]
    simp [Finset.not_mem_erase, h]
  · rw [if_neg h, if_pos (Finset.mem_insert_self _ _), Finset.erase_insert h]
    simp [h]

/-- C3 counterexample: with a total size of zero the component renders the
determinate percent value 0, not an indeterminate state, so a job with
`totalBytes == 0` is shown with the definite numeric percentage 0. -/
theorem downloadProgress_indeterminate_claim_false :
    downloadProgressDisplay 5 0 = .percent 0 ∧
    ProgressDisplay.percent (0 : ℚ) ≠ .indeterminate := by
  constructor
  · simp [downloadProgressDisplay, downloadProgressValue]
  · simp

/-- C3 (amended): when the total size is positive the rendered value is
the ratio of transferred to total bytes expressed as a percentage, and
when the total size is zero the component renders the determinate percent
value 0 instead of an indeterminate state. -/
theorem downloadProgress_display_values (progress totalSize : ℚ) :
    (0 < totalSize →
      downloadProgressDisplay progress totalSize =
        .percent (progress / totalSize * 100)) ∧
    (totalSize = 0 → downloadProgressDisplay progress totalSize = .percent 0) := by
  constructor
  · intro h
    simp [downloadProgressDisplay, downloadProgressValue, h]
  · intro h
    subst h
    simp [downloadProgressDisplay, downloadProgressValue]

/-- C3 witness: one of two bytes transferred is rendered as 50 percent. -/
theorem downloadProgress_display_values_witness :
    downloadProgressDisplay 1 2 = .percent 50 := by
  have h := (downloadProgress_display_values 1 2).1 (by norm_num)
  have hval : (1 : ℚ) / 2 * 100 = 50 := by norm_num
  rw [h, hval]

/-- C4 counterexample: the consumer applies payloads verbatim, so a
zip-progress payload smaller than the preceding download-progress payload
is observed as a decrease of the displayed byte count, and a payload
larger than the announced total is observed to exceed it. -/
theorem progress_monotone_claim_false :
    (runEvents ⟨0, 0⟩ [.totalSize 10, .downloadProgress 8]).progress = 8 ∧
    (runEvents ⟨0, 0⟩
        [.totalSize 10, .downloadProgress 8, .zipProgress 2]).progress = 2 ∧
    (2 : Nat) < 8 ∧
    (runEvents ⟨0, 0⟩ [.totalSize 10, .downloadProgress 15]).totalSize <
      (runEvents ⟨0, 0⟩ [.totalSize 10, .downloadProgress 15]).progress := by
  decide

/-- C4 (amended): the observed byte count of the consumer equals the most
recent payload of either progress channel, verbatim (last-write-wins).
The consumer enforces neither monotonicity nor the bound by the total
size: the displayed value is non-decreasing only when the emitted payload
sequence is. -/
theorem runEvents_progress_lastPayload (s : ProgressState) (events : List PiEvent) :
    (runEvents s events).progress = (progressPayloads events).getLastD s.progress := by
  induction events generalizing s with
  | nil => rfl
  | cons e rest ih =>
      have hstep : runEvents s (e :: rest) = runEvents (step s e) rest := rfl
      rw [hstep, ih]
      cases e with
      | downloadProgress v =>
          have h1 : progressPayloads (PiEvent.downloadProgress v :: rest) =
              v :: progressPayloads rest := rfl
          rw [h1, List.getLastD_cons]
          rfl
      | zipProgress v =>
          have h1 : progressPayloads (PiEvent.zipProgress v :: rest) =
              v :: progressPayloads rest := rfl
          rw [h1, List.getLastD_cons]
          rfl
      | totalSize v =>
          have h1 : progressPayloads (PiEvent.totalSize v :: rest) =
              progressPayloads rest := rfl
          rw [h1]
          rfl

/-- C8: every backend command invocation issued by the interface passes
the lower-cased user name as the `userName` argument. -/
theorem backend_calls_lowercase (user : User) :
    ∀ call ∈ explorerBackendCalls user, call.userName = jsToLowerCase user.name := by
  intro call hcall
  simp only [explorerBackendCalls, List.mem_cons, List.not_mem_nil, or_false] at hcall
  rcases hcall with rfl | rfl | rfl | rfl | rfl | rfl | rfl | rfl | rfl <;> rfl

/-- C8 witness: the listing call for the user Alice addresses the backend
tree of alice. -/
theorem backend_calls_lowercase_witness :
    (fetchFilesCall ⟨"Alice", "pw", 1⟩).userName = "alice" := by
  have h := backend_calls_lowercase ⟨"Alice", "pw", 1⟩ (fetchFilesCall ⟨"Alice", "pw", 1⟩)
    (by simp [explorerBackendCalls])
  rw [h]
  decide

/-- Helper: for an account table with pairwise distinct names, the login
handler invokes `onLogin` with an account exactly when that account is in
the table, its name is the selected one and its password is the entered
one. -/
theorem handleLogin_loggedIn_iff (users : List User) (selectedUser : Option String)
    (password : String) (huniq : (users.map User.name).Nodup) (account : User) :
    handleLogin users selectedUser password = .loggedIn account ↔
      (account ∈ users ∧ selectedUser = some account.name ∧
        account.password = password) := by
  induction users with
  | nil => simp [handleLogin]
  | cons u rest ih =>
      simp only [List.map_cons, List.nodup_cons] at huniq
      obtain ⟨hu, hrest⟩ := huniq
      by_cases hpu : selectedUser = some u.name
      · have hfind : (u :: rest).find? (fun v => selectedUser = some v.name) = some u := by
          apply List.find?_cons_of_pos
          simp [hpu]
        simp only [handleLogin, hfind]
        by_cases hpw : u.password = password
        · rw [if_pos hpw]
          constructor
          · intro h
            have hau : u = account := by injection h
            subst hau
            exact ⟨List.mem_cons_self u rest, hpu, hpw⟩
          · rintro ⟨hmem, hsel, hpwd⟩
            have hname : account.name = u.name := by
              rw [hpu] at hsel
              exact (Option.some.inj hsel).symm
            have hau : account = u := by
              rcases List.mem_cons.mp hmem with h | h
              · exact h
              · exact absurd (hname ▸ List.mem_map_of_mem User.name h) hu
            rw [hau]
        · rw [if_neg hpw]
          constructor
          · intro h
            cases h
          · rintro ⟨hmem, hsel, hpwd⟩
            have hname : account.name = u.name := by
              rw [hpu] at hsel
              exact (Option.some.inj hsel).symm
            have hau : account = u := by
              rcases List.mem_cons.mp hmem with h | h
              · exact h
              · exact absurd (hname ▸ List.mem_map_of_mem User.name h) hu
            exact absurd (hau ▸ hpwd) hpw
      · have hfind : (u :: rest).find? (fun v => selectedUser = some v.name) =
            rest.find? (fun v => selectedUser = some v.name) := by
          apply List.find?_cons_of_neg
          simp [hpu]
        simp only [handleLogin, hfind]
        have hrec : (match rest.find? (fun v => selectedUser = some v.name) with
            | some v => if v.password = password then LoginOutcome.loggedIn v
              else .invalidCredentials
            | none => .invalidCredentials) = handleLogin rest selectedUser password := rfl
        rw [hrec, ih hrest]
        constructor
        · rintro ⟨hmem, hsel, hpwd⟩
          exact ⟨List.mem_cons_of_mem u hmem, hsel, hpwd⟩
        · rintro ⟨hmem, hsel, hpwd⟩
          rcases List.mem_cons.mp hmem with h | h
          · exact absurd (h ▸ hsel) hpu
          · exact ⟨h, hsel, hpwd⟩

/-- C5: for an account table with pairwise distinct names, login succeeds
(the `onLogin` callback is invoked with the matching account) exactly when
the table contains an account whose name is the selected one and whose
password is exactly the entered one; on any mismatch the handler shows the
invalid-credentials alert and `onLogin` is not invoked. -/
theorem handleLogin_characterization (users : List User) (selectedUser : Option String)
    (password : String) (huniq : (users.map User.name).Nodup) :
    (∀ account, handleLogin users selectedUser password = .loggedIn account ↔
      (account ∈ users ∧ selectedUser = some account.name ∧
        account.password = password)) ∧
    (handleLogin users selectedUser password = .invalidCredentials ↔
      ¬ ∃ account, account ∈ users ∧ selectedUser = some account.name ∧
        account.password = password) := by
  refine ⟨fun account => handleLogin_loggedIn_iff users selectedUser password huniq account, ?_⟩
  constructor
  · rintro hinv ⟨a, hmem, hsel, hpw⟩
    have h := (handleLogin_loggedIn_iff users selectedUser password huniq a).mpr
      ⟨hmem, hsel, hpw⟩
    rw [h] at hinv
    cases hinv
  · intro hnone
    cases hout : handleLogin users selectedUser password with
    | loggedIn a =>
        have h := (handleLogin_loggedIn_iff users selectedUser password huniq a).mp hout
        exact absurd ⟨a, h.1, h.2.1, h.2.2⟩ hnone
    | invalidCredentials => rfl

/-- C5 witness: with a two-account table, selecting bob and entering the
bob password logs in as bob. -/
theorem handleLogin_characterization_witness :
    handleLogin [⟨"alice", "pw1", 1⟩, ⟨"bob", "pw2", 2⟩] (some "bob") "pw2" =
      .loggedIn ⟨"bob", "pw2", 2⟩ :=
  ((handleLogin_characterization [⟨"alice", "pw1", 1⟩, ⟨"bob", "pw2", 2⟩]
      (some "bob") "pw2" (by decide)).1 ⟨"bob", "pw2", 2⟩).mpr (by decide)

/-- Helper: normalization fails exactly when some leading part of the
segment sequence has a net depth below the negated depth of the starting
stack; with an empty stack, exactly when some leading part would climb
above the root. -/
theorem normalize_eq_none_iff (segs : List String) : ∀ stack : List String,
    normalize stack segs = none ↔
      ∃ t u, t ++ u = segs ∧ (stack.length : Int) + netDepth t < 0 := by
  induction segs with
  | nil =>
      intro stack
      have heq : normalize stack [] = some stack := rfl
      rw [heq]
      constructor
      · intro h
        cases h
      · rintro ⟨t, u, hsplit, hlt⟩
        obtain ⟨rfl, rfl⟩ := List.append_eq_nil.mp hsplit
        simp only [netDepth, add_zero] at hlt
        exfalso
        omega
  | cons seg rest ih =>
      intro stack
      by_cases hdot : seg = "." ∨ seg = ""
      · have heq : normalize stack (seg :: rest) = normalize stack rest := by
          simp [normalize, hdot]
        have hsd : segDepth seg = 0 := by simp [segDepth, hdot]
        rw [heq, ih stack]
        constructor
        · rintro ⟨t, u, hsplit, hlt⟩
          refine ⟨seg :: t, u, by rw [List.cons_append, hsplit], ?_⟩
          simp only [netDepth, hsd]
          omega
        · rintro ⟨t, u, hsplit, hlt⟩
          cases t with
          | nil =>
              exfalso
              simp only [netDepth, add_zero] at hlt
              omega
          | cons a t2 =>
              rw [List.cons_append] at hsplit
              obtain ⟨ha, hrest2⟩ := List.cons.inj hsplit
              subst ha
              refine ⟨t2, u, hrest2, ?_⟩
              simp only [netDepth, hsd] at hlt
              omega
      · by_cases hdd : seg = ".."
        · subst hdd
          have hsd : segDepth ".." = -1 := rfl
          cases stack with
          | nil =>
              have heq : normalize [] (".." :: rest) = none := rfl
              rw [heq]
              constructor
              · intro _
                exact ⟨[".."], rest, rfl, by decide⟩
              · intro _
                rfl
          | cons top stack2 =>
              have heq : normalize (top :: stack2) (".." :: rest) =
                  normalize stack2 rest := rfl
              rw [heq, ih stack2]
              constructor
              · rintro ⟨t, u, hsplit, hlt⟩
                refine ⟨".." :: t, u, by rw [List.cons_append, hsplit], ?_⟩
                simp only [netDepth, hsd, List.length_cons]
                push_cast
                omega
              · rintro ⟨t, u, hsplit, hlt⟩
                cases t with
                | nil =>
                    exfalso
                    simp only [netDepth, add_zero] at hlt
                    omega
                | cons a t2 =>
                    rw [List.cons_append] at hsplit
                    obtain ⟨ha, hrest2⟩ := List.cons.inj hsplit
                    subst ha
                    refine ⟨t2, u, hrest2, ?_⟩
                    simp only [netDepth, hsd, List.length_cons] at hlt
                    push_cast at hlt
                    omega
        · have heq : normalize stack (seg :: rest) = normalize (seg :: stack) rest := by
            simp [normalize, hdot, hdd]
          have hsd : segDepth seg = 1 := by simp [segDepth, hdot, hdd]
          rw [heq, ih (seg :: stack)]
          constructor
          · rintro ⟨t, u, hsplit, hlt⟩
            refine ⟨seg :: t, u, by rw [List.cons_append, hsplit], ?_⟩
            simp only [netDepth, hsd]
            simp only [List.length_cons] at hlt
            push_cast at hlt
            omega
          · rintro ⟨t, u, hsplit, hlt⟩
            cases t with
            | nil =>
                exfalso
                simp only [netDepth, add_zero] at hlt
                omega
            | cons a t2 =>
                rw [List.cons_append] at hsplit
                obtain ⟨ha, hrest2⟩ := List.cons.inj hsplit
                subst ha
                refine ⟨t2, u, hrest2, ?_⟩
                simp only [netDepth, hsd] at hlt
                simp only [List.length_cons]
                push_cast
                omega

/-- C2: for every base directory, user and relative segment sequence,
including sequences with dot-dot segments at any nesting depth, a
successful resolution is a path under the user root (the root is a
leading part of the result), and resolution fails with the path escape
error exactly when some leading part of the input has negative net depth,
that is, when normalization would leave the root. -/
theorem resolve_sandbox (base : List String) (user : User) (segs : List String) :
    (∀ p, resolve base user segs = .ok p → ∃ t, p = rootPath base user ++ t) ∧
    (resolve base user segs = .error .pathEscape ↔
      ∃ t u, t ++ u = segs ∧ netDepth t < 0) := by
  constructor
  · intro p hp
    unfold resolve at hp
    split at hp
    · exact ⟨_, (Except.ok.inj hp).symm⟩
    · cases hp
  · unfold resolve
    cases hnorm : normalize [] segs with
    | some stack =>
        simp only []
        constructor
        · intro h
          cases h
        · rintro ⟨t, u, hsplit, hlt⟩
          have hnone : normalize [] segs = none := by
            rw [normalize_eq_none_iff]
            exact ⟨t, u, hsplit, by simpa using hlt⟩
          rw [hnorm] at hnone
          cases hnone
    | none =>
        simp only []
        constructor
        · intro _
          obtain ⟨t, u, hsplit, hlt⟩ := (normalize_eq_none_iff segs []).mp hnorm
          exact ⟨t, u, hsplit, by simpa using hlt⟩
        · intro _
          trivial

/-- C2 witness: resolving docs, dot-dot, notes for the user Alice under
the base directory home succeeds and stays under the alice root. -/
theorem resolve_sandbox_witness :
    ∃ t, ["home", "alice", "notes"] =
      rootPath ["home"] ⟨"Alice", "pw", 1⟩ ++ t :=
  (resolve_sandbox ["home"] ⟨"Alice", "pw", 1⟩ ["docs", "..", "notes"]).1
    ["home", "alice", "notes"] rfl

/-- Helper: one unfolding step of the batch delete. -/
theorem deleteEntries_cons (dir : List String) (n : String) (rest : List String) :
    deleteEntries dir (n :: rest) =
      ((deleteEntries (deleteOne dir n).1 rest).1,
        (deleteOne dir n).2.toList ++ (deleteEntries (deleteOne dir n).1 rest).2) := rfl

/-- C7: for a batch of pairwise distinct names, every name is attempted
independently: the aggregate failure report is exactly the sublist of
requested names that do not exist in the directory (each with its
not-found reason), and the directory afterwards has exactly the entries
whose names were not requested — a missing name in the middle of the
batch does not prevent the deletion of the remaining names. -/
theorem deleteEntries_partial_failure (dir names : List String) (hnodup : names.Nodup) :
    (deleteEntries dir names).2 = names.filter (fun n => decide (¬ n ∈ dir)) ∧
    (deleteEntries dir names).1 = dir.filter (fun e => decide (¬ e ∈ names)) := by
  induction names generalizing dir with
  | nil =>
      refine ⟨rfl, ?_⟩
      have h1 : (deleteEntries dir []).1 = dir := rfl
      rw [h1]
      symm
      rw [List.filter_eq_self]
      intro a _
      simp
  | cons n rest ih =>
      obtain ⟨hn, hrest⟩ := List.nodup_cons.mp hnodup
      rw [deleteEntries_cons]
      by_cases hmem : n ∈ dir
      · have hdel : deleteOne dir n = (dir.filter (fun e => decide (¬ e = n)), none) := by
          simp [deleteOne, hmem]
        rw [hdel]
        obtain ⟨ihfail, ihdir⟩ := ih (dir.filter (fun e => decide (¬ e = n))) hrest
        constructor
        · simp only [Option.toList_none, List.nil_append, ihfail]
          rw [List.filter_cons_of_neg (by simpa using hmem)]
          apply List.filter_congr
          intro m hm
          have hmn : m ≠ n := fun h => hn (h ▸ hm)
          simp [List.mem_filter, hmn]
        · simp only [ihdir]
          rw [List.filter_filter]
          apply List.filter_congr
          intro e _
          simp [List.mem_cons, not_or, Bool.and_comm]
      · have hdel : deleteOne dir n = (dir, some n) := by
          simp [deleteOne, hmem]
        rw [hdel]
        obtain ⟨ihfail, ihdir⟩ := ih dir hrest
        constructor
        · simp only [Option.toList_some, List.cons_append, List.nil_append, ihfail]
          rw [List.filter_cons_of_pos (by simpa using hmem)]
        · simp only [ihdir]
          apply List.filter_congr
          intro e he
          have hen : e ≠ n := fun h => hmem (h ▸ he)
          simp [List.mem_cons, not_or, hen]

/-- C7 witness: deleting the batch a, b, c from a directory holding a and
b deletes both valid names and reports exactly c as failed, not an
all-or-nothing abort. -/
theorem deleteEntries_partial_failure_witness :
    (deleteEntries ["a", "b"] ["a", "b", "c"]).2 = ["c"] ∧
    (deleteEntries ["a", "b"] ["a", "b", "c"]).1 = [] := by
  have h := deleteEntries_partial_failure ["a", "b"] ["a", "b", "c"] (by decide)
  exact ⟨h.1.trans (by decide), h.2.trans (by decide)⟩

end PiInterface
